import Mathlib

/-!
Shallow embedding of the Monte Carlo tournament simulator
(`src/monte_carlo_sim.py`) together with the pieces of the database layer
(`src/football_db.py`) that it relies on: the `Team` tally, the `Match`
fixture, the stats update, and the canonical standings computation.

Python dictionaries are modelled as insertion-ordered association lists
(`List (String × α)`); Python `defaultdict` access is the `bump` operation
below, which inserts the key on first access exactly as `defaultdict` does.
The global `random` module is modelled as an explicit stream `ℕ → ℚ` of
standard-normal draws; `random.gauss(mu, sigma)` is `mu + sigma * z` with
`z` the next stream value, and dict/list mutation is explicit state passing.
Fallible dictionary lookups (Python `KeyError`) return `Option`.
-/

namespace VSDB

/-- `Team` from `football_db.py`: name plus the mutable tally. -/
structure Team where
  name : String
  matches_played : ℤ
  wins : ℤ
  draws : ℤ
  losses : ℤ
  goals_for : ℤ
  goals_against : ℤ
  points : ℤ
deriving DecidableEq, Repr

/-- `Team.goal_difference` property. -/
def Team.goal_difference (t : Team) : ℤ :=
  t.goals_for - t.goals_against

/-- `Team.update_stats(goals_for, goals_against)` from `football_db.py`. -/
def Team.update_stats (t : Team) (gf ga : ℤ) : Team :=
  let t1 := { t with matches_played := t.matches_played + 1,
                     goals_for := t.goals_for + gf,
                     goals_against := t.goals_against + ga }
  if gf > ga then
    { t1 with wins := t1.wins + 1, points := t1.points + 3 }
  else if gf = ga then
    { t1 with draws := t1.draws + 1, points := t1.points + 1 }
  else
    { t1 with losses := t1.losses + 1 }

/-- `Match` from `football_db.py`. -/
structure Match where
  home_team : String
  away_team : String
  matchday : ℤ
  home_score : Option ℤ
  away_score : Option ℤ
  played : Bool
deriving DecidableEq, Repr

/-- `Match.set_result(home_score, away_score)` from `football_db.py`. -/
def Match.set_result (m : Match) (hs asc : ℤ) : Match :=
  { m with home_score := some hs, away_score := some asc, played := true }

/-- A Python dict of teams keyed by name, in insertion order. -/
abbrev TeamsMap := List (String × Team)

/-- Dict lookup (first binding of the key). -/
def lookupD {β : Type} (d : List (String × β)) (k : String) : Option β :=
  match d with
  | [] => none
  | p :: ps => if p.1 = k then some p.2 else lookupD ps k

/-- In-place mutation of the value at key `k` (Python `d[k].method(...)`);
fails like a `KeyError` when the key is absent. -/
def updateTeam (d : TeamsMap) (k : String) (f : Team → Team) : Option TeamsMap :=
  match lookupD d k with
  | none => none
  | some _ => some (d.map fun p => if p.1 = k then (p.1, f p.2) else p)

/-- The global random stream: index `n` gives the `n`-th standard-normal
draw, as a rational. -/
abbrev RNG := ℕ → ℚ

/-- Drop the first `k` draws of the stream. -/
def shift (k : ℕ) (r : RNG) : RNG :=
  fun n => r (n + k)

/-- Python `int()` on a real value: truncation toward zero. -/
def truncToZero (q : ℚ) : ℤ :=
  if 0 ≤ q then ⌊q⌋ else -⌊-q⌋

/-- `random.gauss(mu, 1.5)` followed by `max(0, int(·))`, with `z` the
standard-normal draw taken from the stream. -/
def gaussScore (mu : ℚ) (z : ℚ) : ℤ :=
  max 0 (truncToZero (mu + 3/2 * z))

/-- The score computation of `MonteCarloSimulator.simulate_match` applied to
two team records: strengths, expected goals, and the two clipped draws. -/
def matchScore (home away : Team) (z1 z2 : ℚ) : ℤ × ℤ :=
  let home_strength : ℚ := (home.points : ℚ) + 10
  let away_strength : ℚ := (away.points : ℚ)
  let home_expected : ℚ := max (1/2) (home_strength / 10)
  let away_expected : ℚ := max (1/2) (away_strength / 10)
  (gaussScore home_expected z1, gaussScore away_expected z2)

/-- `MonteCarloSimulator.simulate_match(home_team, away_team)`: looks the two
teams up in `self.teams` (the simulator state, not the per-run copy) and
draws the two scores. -/
def simulate_match (selfTeams : TeamsMap) (home_team away_team : String)
    (z1 z2 : ℚ) : Option (ℤ × ℤ) :=
  match lookupD selfTeams home_team, lookupD selfTeams away_team with
  | some h, some a => some (matchScore h a z1 z2)
  | _, _ => none

/-- `MonteCarloSimulator.simulate_remaining_matches(teams_copy, matches_copy)`:
walks the fixture list in order; each unplayed fixture is simulated via
`simulate_match` (which reads `self.teams`), its result recorded, and both
working tallies updated. Returns the updated copies and the advanced stream. -/
def simulate_remaining_matches (selfTeams : TeamsMap) :
    TeamsMap → List Match → RNG → Option (TeamsMap × List Match × RNG)
  | tc, [], rng => some (tc, [], rng)
  | tc, m :: ms, rng =>
    if m.played then
      match simulate_remaining_matches selfTeams tc ms rng with
      | none => none
      | some (tc', ms', rng') => some (tc', m :: ms', rng')
    else
      match simulate_match selfTeams m.home_team m.away_team (rng 0) (rng 1) with
      | none => none
      | some (hs, asc) =>
        match updateTeam tc m.home_team (fun t => t.update_stats hs asc) with
        | none => none
        | some tc1 =>
          match updateTeam tc1 m.away_team (fun t => t.update_stats asc hs) with
          | none => none
          | some tc2 =>
            match simulate_remaining_matches selfTeams tc2 ms (shift 2 rng) with
            | none => none
            | some (tc', ms', rng') => some (tc', m.set_result hs asc :: ms', rng')

/-- `MonteCarloSimulator.run_single_simulation()`: deep-copies the teams and
matches, simulates the remaining fixtures on the copies, and returns the final
points per team (in dict order) together with the advanced stream. -/
def run_single_simulation (selfTeams : TeamsMap) (selfMatches : List Match)
    (rng : RNG) : Option (List (String × ℤ) × RNG) :=
  match simulate_remaining_matches selfTeams selfTeams selfMatches rng with
  | none => none
  | some (tc, _, rng') => some (tc.map fun p => (p.1, p.2.points), rng')

/-- Stable descending insertion: `x` goes in front of the first element whose
key does not exceed the key of `x` (the behaviour of Python `sorted` with
`reverse=True`). -/
def insertDesc {α : Type} (ge : α → α → Bool) (x : α) : List α → List α
  | [] => [x]
  | y :: ys => if ge x y then x :: y :: ys else y :: insertDesc ge x ys

/-- Stable descending sort. -/
def sortDesc {α : Type} (ge : α → α → Bool) : List α → List α
  | [] => []
  | x :: xs => insertDesc ge x (sortDesc ge xs)

/-- The key comparison of `sorted(final_points.items(), key=lambda x: x[1],
reverse=True)`: compare the point totals only. -/
def ptsGE (a b : String × ℤ) : Bool :=
  b.2 ≤ a.2

/-- The per-run ranking of `run_simulations`: sort the (team, points) pairs by
points, descending, stably. -/
def sortByPoints (l : List (String × ℤ)) : List (String × ℤ) :=
  sortDesc ptsGE l

/-- The sort key of `FootballDatabase.get_standings`. -/
def tripleKey (t : Team) : ℤ × ℤ × ℤ :=
  (t.points, t.goal_difference, t.goals_for)

/-- Lexicographic `≤` on the Python tuple `(points, goal_difference, goals_for)`. -/
def lexLE (x y : ℤ × ℤ × ℤ) : Bool :=
  decide (x.1 < y.1 ∨ (x.1 = y.1 ∧ (x.2.1 < y.2.1 ∨ (x.2.1 = y.2.1 ∧ x.2.2 ≤ y.2.2))))

/-- Comparison used by `get_standings` (descending on the tuple key). -/
def tripleGE (a b : Team) : Bool :=
  lexLE (tripleKey b) (tripleKey a)

/-- `FootballDatabase.get_standings()`: the canonical standings, sorting the
team records by `(points, goal_difference, goals_for)` descending. -/
def get_standings (teams : TeamsMap) : List Team :=
  sortDesc tripleGE (teams.map fun p => p.2)

/-- The mutable accumulators of `run_simulations`: `final_positions`,
`points_distribution` and `qualification_count`, each a `defaultdict`. -/
structure SimState where
  final_positions : List (String × (ℕ → ℕ))
  points_distribution : List (String × List ℤ)
  qualification_count : List (String × ℕ)

/-- `defaultdict` access-and-update: mutate the entry at `k`, inserting
`f dflt` at the end when the key is seen for the first time. -/
def bump {β : Type} (d : List (String × β)) (k : String) (dflt : β)
    (f : β → β) : List (String × β) :=
  match lookupD d k with
  | some _ => d.map fun p => if p.1 = k then (p.1, f p.2) else p
  | none => d ++ [(k, f dflt)]

/-- Hardcoded qualification cutoff of `run_simulations` (top 8 qualify). -/
def qualificationCutoff : ℕ := 8

/-- The body of the recording loop of `run_simulations` for one team at
1-based `pos`: bump its histogram entry, append its points, and bump its
qualification counter when `pos ≤ 8`. -/
def recordTeam (st : SimState) (pos : ℕ) (nm : String) (pts : ℤ) : SimState :=
  let st1 := { st with
    final_positions :=
      bump st.final_positions nm (fun _ => 0)
        (fun h => fun q => if q = pos then h q + 1 else h q),
    points_distribution :=
      bump st.points_distribution nm [] (fun l => l ++ [pts]) }
  if pos ≤ qualificationCutoff then
    { st1 with qualification_count := bump st1.qualification_count nm 0 (· + 1) }
  else st1

/-- `enumerate(sorted_teams, 1)` recording loop, starting at position `pos`. -/
def recordAux (pos : ℕ) : SimState → List (String × ℤ) → SimState
  | st, [] => st
  | st, (nm, pts) :: rest => recordAux (pos + 1) (recordTeam st pos nm pts) rest

/-- Record one resolved run into the accumulators. -/
def recordRun (st : SimState) (ranked : List (String × ℤ)) : SimState :=
  recordAux 1 st ranked

/-- The `for i in range(n_simulations)` loop of `run_simulations`: run a
single simulation, rank its final points, record it, repeat. -/
def simLoop (selfTeams : TeamsMap) (selfMatches : List Match) :
    ℕ → SimState → RNG → Option (SimState × RNG)
  | 0, st, rng => some (st, rng)
  | k + 1, st, rng =>
    match run_single_simulation selfTeams selfMatches rng with
    | none => none
    | some (fp, rng') =>
      simLoop selfTeams selfMatches k (recordRun st (sortByPoints fp)) rng'

/-- Python `min` of a nonempty list (the code only ever applies it to the
nonempty per-team points lists). -/
def pyMin (l : List ℤ) : ℤ :=
  match l with
  | [] => 0
  | x :: xs => xs.foldl min x

/-- Python `max` of a nonempty list. -/
def pyMax (l : List ℤ) : ℤ :=
  match l with
  | [] => 0
  | x :: xs => xs.foldl max x

/-- The `results` dictionary returned by `run_simulations`. -/
structure SimResults where
  final_positions : List (String × (ℕ → ℕ))
  qualification_probability : List (String × ℚ)
  average_points : List (String × ℚ)
  points_range : List (String × (ℤ × ℤ))
  n_simulations : ℕ

/-- The statistics block at the end of `run_simulations`. -/
def finalize (st : SimState) (n : ℕ) : SimResults :=
  { final_positions := st.final_positions
    qualification_probability :=
      st.qualification_count.map fun p => (p.1, (p.2 : ℚ) / (n : ℚ) * 100)
    average_points :=
      st.points_distribution.map fun p => (p.1, ((p.2.sum : ℚ)) / (p.2.length : ℚ))
    points_range :=
      st.points_distribution.map fun p => (p.1, (pyMin p.2, pyMax p.2))
    n_simulations := n }

/-- Fresh, empty accumulators. -/
def emptyState : SimState :=
  { final_positions := [], points_distribution := [], qualification_count := [] }

/-- `MonteCarloSimulator.run_simulations(n_simulations)`. -/
def run_simulations (selfTeams : TeamsMap) (selfMatches : List Match)
    (n : ℕ) (rng : RNG) : Option (SimResults × RNG) :=
  match simLoop selfTeams selfMatches n emptyState rng with
  | none => none
  | some (st, rng') => some (finalize st n, rng')

/-- Modelled from the spec (§4.3 step 2): the Run Engine variant that invokes
the Outcome Model with the two teams **current working** records, so that a
later fixture sees the points accumulated from earlier simulated fixtures of
the same run. It differs from `simulate_remaining_matches` only in the map
passed to `simulate_match`. Used to compare the code against the spec words. -/
def specSimulateRemaining :
    TeamsMap → List Match → RNG → Option (TeamsMap × List Match × RNG)
  | tc, [], rng => some (tc, [], rng)
  | tc, m :: ms, rng =>
    if m.played then
      match specSimulateRemaining tc ms rng with
      | none => none
      | some (tc', ms', rng') => some (tc', m :: ms', rng')
    else
      match simulate_match tc m.home_team m.away_team (rng 0) (rng 1) with
      | none => none
      | some (hs, asc) =>
        match updateTeam tc m.home_team (fun t => t.update_stats hs asc) with
        | none => none
        | some tc1 =>
          match updateTeam tc1 m.away_team (fun t => t.update_stats asc hs) with
          | none => none
          | some tc2 =>
            match specSimulateRemaining tc2 ms (shift 2 rng) with
            | none => none
            | some (tc', ms', rng') => some (tc', m.set_result hs asc :: ms', rng')

/-- The fixture results computed fixture by fixture from the frozen snapshot
records only: every unplayed fixture is scored by `simulate_match` on
`selfTeams`, with no reference to any working tallies. -/
def frozenScores (selfTeams : TeamsMap) : List Match → RNG → Option (List Match)
  | [], _ => some []
  | m :: ms, rng =>
    if m.played then
      match frozenScores selfTeams ms rng with
      | none => none
      | some ms' => some (m :: ms')
    else
      match simulate_match selfTeams m.home_team m.away_team (rng 0) (rng 1) with
      | none => none
      | some (hs, asc) =>
        match frozenScores selfTeams ms (shift 2 rng) with
        | none => none
        | some ms' => some (m.set_result hs asc :: ms')

/-- Number of unplayed fixtures of a fixture list; each such fixture consumes
exactly two draws from the stream. -/
def unplayedCount (ms : List Match) : ℕ :=
  (ms.filter (fun m => !m.played)).length

/-- The simulation loop re-expressed with explicitly seeded runs: run `i`
reads only the draws at offsets `[2*m*i, 2*m*(i+1))` of the session stream,
where `m` is the number of unplayed fixtures; `k` runs remain and the next
run has index `i`. -/
def seededLoop (selfTeams : TeamsMap) (selfMatches : List Match) (rng : RNG) :
    ℕ → ℕ → SimState → Option SimState
  | 0, _, st => some st
  | k + 1, i, st =>
    match run_single_simulation selfTeams selfMatches
        (shift (2 * unplayedCount selfMatches * i) rng) with
    | none => none
    | some (fp, _) =>
      seededLoop selfTeams selfMatches rng k (i + 1) (recordRun st (sortByPoints fp))

/-- Key list of a Python dict model. -/
def keys {β : Type} (d : List (String × β)) : List String :=
  d.map fun p => p.1

/-- Current qualification counter of a team (`defaultdict(int)` semantics:
an absent key reads as 0). -/
def qcVal (st : SimState) (nm : String) : ℕ :=
  ((lookupD st.qualification_count nm).getD 0)

/-- Current histogram count of a team at a position (`defaultdict` semantics). -/
def histVal (st : SimState) (nm : String) (pos : ℕ) : ℕ :=
  ((lookupD st.final_positions nm).getD (fun _ => 0)) pos

/-- Whether the first occurrence of team `t` in the ranked list, counting
from position `pos`, lies at or above the qualification cutoff. -/
def qualAt (t : String) : ℕ → List (String × ℤ) → Bool
  | _, [] => false
  | pos, p :: ps => if p.1 = t then decide (pos ≤ qualificationCutoff) else qualAt t (pos + 1) ps

/-- Whether team `t` qualifies in a run whose resolved ranking is `rl`. -/
def qualifiesIn (rl : List (String × ℤ)) (t : String) : Bool :=
  qualAt t 1 rl

/-- Whether team `t` qualifies in run `i` of the seeded decomposition. -/
def runQualifies (selfTeams : TeamsMap) (selfMatches : List Match) (rng : RNG)
    (t : String) (i : ℕ) : Bool :=
  match run_single_simulation selfTeams selfMatches
      (shift (2 * unplayedCount selfMatches * i) rng) with
  | none => false
  | some (fp, _) => qualifiesIn (sortByPoints fp) t

/-- The tally invariant: points are three per win plus one per draw, and
matches played is the number of decided results. -/
def Inv (t : Team) : Prop :=
  t.points = 3 * t.wins + t.draws ∧ t.matches_played = t.wins + t.draws + t.losses

instance instDecidableInv (t : Team) : Decidable (Inv t) :=
  decidable_of_iff
    (t.points = 3 * t.wins + t.draws ∧ t.matches_played = t.wins + t.draws + t.losses)
    Iff.rfl

/-- The mutable fields of the `MonteCarloSimulator` object (`self.teams` and
`self.matches`). -/
structure Simulator where
  teams : TeamsMap
  matchList : List Match
deriving DecidableEq

/-- `run_single_simulation` with the object state threaded explicitly: the
deep copies are fresh values, the simulation runs on the copies, and the
object fields are handed back as the method leaves them. -/
def run_single_simulation_obj (s : Simulator) (rng : RNG) :
    Option ((List (String × ℤ)) × Simulator × RNG) :=
  let teams_copy := s.teams
  let matches_copy := s.matchList
  match simulate_remaining_matches s.teams teams_copy matches_copy rng with
  | none => none
  | some (tc, _, rng') => some (tc.map fun p => (p.1, p.2.points), s, rng')

/-- The simulation loop with the object state threaded explicitly. -/
def simLoop_obj : ℕ → Simulator → SimState → RNG → Option (SimState × Simulator × RNG)
  | 0, s, st, rng => some (st, s, rng)
  | k + 1, s, st, rng =>
    match run_single_simulation_obj s rng with
    | none => none
    | some (fp, s', rng') => simLoop_obj k s' (recordRun st (sortByPoints fp)) rng'

/-- `run_simulations` with the object state threaded explicitly, so that the
state of the snapshot after the call can be compared with the state before. -/
def run_simulations_obj (s : Simulator) (n : ℕ) (rng : RNG) :
    Option (SimResults × Simulator × RNG) :=
  match simLoop_obj n s emptyState rng with
  | none => none
  | some (st, s', rng') => some (finalize st n, s', rng')

/-- A fresh team record with an all-zero tally. -/
def team0 (nm : String) : Team :=
  ⟨nm, 0, 0, 0, 0, 0, 0, 0⟩

/-- An unplayed fixture. -/
def unplayedFixture (h a : String) : Match :=
  ⟨h, a, 1, none, none, false⟩

/-- A stream whose first draws are the given list, zero afterwards. -/
def rngOf (l : List ℚ) : RNG :=
  fun n => l.getD n 0

/-- Two fresh teams, used as a concrete snapshot. -/
def tX : TeamsMap :=
  [("H", team0 "H"), ("A", team0 "A")]

/-- A double round of the fixture `H` versus `A`, both unplayed. -/
def msX : List Match :=
  [unplayedFixture "H" "A", unplayedFixture "H" "A"]

/-- Concrete draws for the two fixtures of `msX`. -/
def rngX : RNG :=
  rngOf [4/3, -1, 3/5, 0]

/-- The all-zero stream. -/
def rng0 : RNG :=
  rngOf []

/-- Two teams tied on points (3 each) with opposite goal differences, listed
with the weaker goal difference first. -/
def tY : TeamsMap :=
  [("A", ⟨"A", 2, 1, 0, 1, 0, 5, 3⟩), ("B", ⟨"B", 2, 1, 0, 1, 5, 0, 3⟩)]

/-- Two teams with distinct point totals. -/
def tZ : TeamsMap :=
  [("B", ⟨"B", 2, 1, 0, 1, 2, 2, 3⟩), ("A", ⟨"A", 2, 1, 1, 0, 4, 1, 4⟩)]

/-- Snapshot for the no-remaining-fixtures team: `C` appears in no unplayed
fixture, while `H` and `A` still meet twice. -/
def tW : TeamsMap :=
  [("H", team0 "H"), ("A", team0 "A"), ("C", ⟨"C", 2, 2, 0, 0, 7, 1, 6⟩)]

theorem truncToZero_max_zero (q : ℚ) :
    truncToZero (max 0 q) = max 0 (truncToZero q) := by
  rcases le_or_lt 0 q with h | h
  · rw [max_eq_right h]
    have h0 : (0 : ℤ) ≤ truncToZero q := by
      unfold truncToZero
      rw [if_pos h]
      exact Int.floor_nonneg.mpr h
    rw [max_eq_right h0]
  · have hmax : max (0 : ℚ) q = 0 := max_eq_left h.le
    have h1 : truncToZero q ≤ 0 := by
      unfold truncToZero
      rw [if_neg (not_le.mpr h)]
      have hq : (0 : ℤ) ≤ ⌊-q⌋ := Int.floor_nonneg.mpr (by linarith)
      omega
    rw [hmax, max_eq_left h1]
    simp [truncToZero]

theorem shift_shift (a b : ℕ) (r : RNG) :
    shift a (shift b r) = shift (a + b) r := by
  funext n
  simp [shift, Nat.add_assoc]

theorem simRem_rng_advance (selfT : TeamsMap) :
    ∀ (ms : List Match) (tc : TeamsMap) (rng : RNG) (tc' : TeamsMap)
      (ms' : List Match) (rng' : RNG),
      simulate_remaining_matches selfT tc ms rng = some (tc', ms', rng') →
      rng' = shift (2 * unplayedCount ms) rng := by
  intro ms
  induction ms with
  | nil =>
    intro tc rng tc' ms' rng' h
    simp only [simulate_remaining_matches, Option.some.injEq, Prod.mk.injEq] at h
    rw [← h.2.2]
    rfl
  | cons m ms ih =>
    intro tc rng tc' ms' rng' h
    by_cases hm : m.played
    · rw [simulate_remaining_matches, if_pos hm] at h
      split at h
      · exact absurd h (by simp)
      next a b c hrec =>
        simp only [Option.some.injEq, Prod.mk.injEq] at h
        have := ih tc rng a b c hrec
        rw [← h.2.2, this]
        have hcount : unplayedCount (m :: ms) = unplayedCount ms := by
          simp [unplayedCount, hm]
        rw [hcount]
    · rw [simulate_remaining_matches, if_neg hm] at h
      split at h
      · exact absurd h (by simp)
      next hs asc hsm =>
        split at h
        · exact absurd h (by simp)
        next tc1 hu1 =>
          split at h
          · exact absurd h (by simp)
          next tc2 hu2 =>
            split at h
            · exact absurd h (by simp)
            next a b c hrec =>
              simp only [Option.some.injEq, Prod.mk.injEq] at h
              have := ih tc2 (shift 2 rng) a b c hrec
              rw [← h.2.2, this, shift_shift]
              have hcount : unplayedCount (m :: ms) = unplayedCount ms + 1 := by
                simp [unplayedCount, hm]
              rw [hcount]
              ring_nf

theorem run_single_rng_advance (selfT : TeamsMap) (selfM : List Match)
    (rng : RNG) (fp : List (String × ℤ)) (rng' : RNG)
    (h : run_single_simulation selfT selfM rng = some (fp, rng')) :
    rng' = shift (2 * unplayedCount selfM) rng := by
  unfold run_single_simulation at h
  split at h
  · exact absurd h (by simp)
  next a b c hrec =>
    simp only [Option.some.injEq, Prod.mk.injEq] at h
    rw [← h.2]
    exact simRem_rng_advance selfT selfM selfT rng a b c hrec

theorem lookupD_map_val {β γ : Type} (g : β → γ) (d : List (String × β)) (k : String) :
    lookupD (d.map fun p => (p.1, g p.2)) k = (lookupD d k).map g := by
  induction d with
  | nil => rfl
  | cons p ps ih =>
    by_cases hp : p.1 = k
    · simp [lookupD, hp]
    · simp [lookupD, hp, ih]

theorem keys_map_update {β : Type} (d : List (String × β)) (k : String) (f : β → β) :
    keys (d.map fun p => if p.1 = k then (p.1, f p.2) else p) = keys d := by
  induction d with
  | nil => rfl
  | cons p ps ih =>
    by_cases hp : p.1 = k <;> simp [keys, hp] <;> simpa [keys] using ih

theorem lookupD_update_ne {β : Type} (d : List (String × β)) (k j : String) (f : β → β)
    (hj : j ≠ k) :
    lookupD (d.map fun p => if p.1 = k then (p.1, f p.2) else p) j = lookupD d j := by
  induction d with
  | nil => rfl
  | cons p ps ih =>
    by_cases hpk : p.1 = k
    · have hpj : ¬p.1 = j := by rw [hpk]; exact fun hh => hj hh.symm
      simp [lookupD, hpk, hpj, Ne.symm hj, ih]
    · by_cases hpj : p.1 = j
      · simp [lookupD, hpk, hpj, hj]
      · simp [lookupD, hpk, hpj, ih]

theorem lookupD_update_self {β : Type} (d : List (String × β)) (k : String) (f : β → β) :
    lookupD (d.map fun p => if p.1 = k then (p.1, f p.2) else p) k = (lookupD d k).map f := by
  induction d with
  | nil => rfl
  | cons p ps ih =>
    by_cases hpk : p.1 = k <;> simp [lookupD, hpk, ih]

theorem lookupD_none_iff {β : Type} (d : List (String × β)) (k : String) :
    lookupD d k = none ↔ k ∉ keys d := by
  induction d with
  | nil => simp [lookupD, keys]
  | cons p ps ih =>
    by_cases hp : p.1 = k
    · simp [lookupD, keys, hp]
    · simp [lookupD, keys, hp, Ne.symm hp, ih]

theorem lookupD_append_left_none {β : Type} (d e : List (String × β)) (k : String)
    (h : lookupD d k = none) : lookupD (d ++ e) k = lookupD e k := by
  induction d with
  | nil => rfl
  | cons p ps ih =>
    by_cases hp : p.1 = k
    · rw [lookupD, if_pos hp] at h; exact absurd h (by simp)
    · rw [lookupD, if_neg hp] at h
      simpa [lookupD, hp] using ih h

theorem lookupD_append_left_some {β : Type} (d e : List (String × β)) (k : String)
    (v : β) (h : lookupD d k = some v) : lookupD (d ++ e) k = some v := by
  induction d with
  | nil => exact absurd h (by simp [lookupD])
  | cons p ps ih =>
    by_cases hp : p.1 = k
    · rw [lookupD, if_pos hp] at h
      simp [lookupD, hp, h]
    · rw [lookupD, if_neg hp] at h
      simpa [lookupD, hp] using ih h

theorem bump_lookup_self {β : Type} (d : List (String × β)) (k : String) (dflt : β)
    (f : β → β) :
    lookupD (bump d k dflt f) k = some (f ((lookupD d k).getD dflt)) := by
  unfold bump
  cases hv : lookupD d k with
  | some v => simp [lookupD_update_self, hv]
  | none =>
    rw [lookupD_append_left_none d _ k hv]
    simp [lookupD]

theorem bump_lookup_ne {β : Type} (d : List (String × β)) (k j : String) (dflt : β)
    (f : β → β) (hj : j ≠ k) :
    lookupD (bump d k dflt f) j = lookupD d j := by
  unfold bump
  cases hv : lookupD d k with
  | some v => exact lookupD_update_ne d k j f hj
  | none =>
    cases hjv : lookupD d j with
    | some w => rw [lookupD_append_left_some d _ j w hjv]
    | none =>
      rw [lookupD_append_left_none d _ j hjv]
      simp [lookupD, Ne.symm hj]

theorem keys_bump_mem {β : Type} (d : List (String × β)) (k : String) (dflt : β)
    (f : β → β) (j : String) :
    j ∈ keys (bump d k dflt f) ↔ j ∈ keys d ∨ j = k := by
  unfold bump
  cases hv : lookupD d k with
  | some v =>
    rw [keys_map_update]
    constructor
    · exact Or.inl
    · rintro (hj | rfl)
      · exact hj
      · by_contra hk
        rw [(lookupD_none_iff d j).mpr hk] at hv
        exact absurd hv (by simp)
  | none => simp [keys]

theorem insertDesc_perm {α : Type} (ge : α → α → Bool) (x : α) (l : List α) :
    List.Perm (insertDesc ge x l) (x :: l) := by
  induction l with
  | nil => exact List.Perm.refl _
  | cons y ys ih =>
    unfold insertDesc
    split
    · exact List.Perm.refl _
    · exact (ih.cons y).trans (List.Perm.swap x y ys)

theorem sortDesc_perm {α : Type} (ge : α → α → Bool) (l : List α) :
    List.Perm (sortDesc ge l) l := by
  induction l with
  | nil => exact List.Perm.refl _
  | cons x xs ih =>
    exact (insertDesc_perm ge x (sortDesc ge xs)).trans (ih.cons x)

theorem mem_sortDesc {α : Type} (ge : α → α → Bool) (l : List α) (a : α) :
    a ∈ sortDesc ge l ↔ a ∈ l :=
  (sortDesc_perm ge l).mem_iff

theorem insertDesc_congr {α : Type} (ge₁ ge₂ : α → α → Bool) (x : α) (l : List α)
    (h : ∀ b ∈ l, ge₁ x b = ge₂ x b) :
    insertDesc ge₁ x l = insertDesc ge₂ x l := by
  induction l with
  | nil => rfl
  | cons y ys ih =>
    have hy := h y (List.mem_cons_self y ys)
    simp only [insertDesc, hy]
    split
    · rfl
    · rw [ih (fun b hb => h b (List.mem_cons_of_mem y hb))]

theorem sortDesc_congr {α : Type} (ge₁ ge₂ : α → α → Bool) (l : List α)
    (h : ∀ a ∈ l, ∀ b ∈ l, ge₁ a b = ge₂ a b) :
    sortDesc ge₁ l = sortDesc ge₂ l := by
  induction l with
  | nil => rfl
  | cons x xs ih =>
    simp only [sortDesc]
    rw [ih (fun a ha => fun b hb =>
      h a (List.mem_cons_of_mem x ha) b (List.mem_cons_of_mem x hb))]
    refine insertDesc_congr ge₁ ge₂ x _ (fun b hb => ?_)
    have hbmem : b ∈ xs := (mem_sortDesc ge₂ xs b).mp hb
    exact h x (List.mem_cons_self x xs) b (List.mem_cons_of_mem x hbmem)

theorem insertDesc_map {α β' : Type} (ge : α → α → Bool) (ge' : β' → β' → Bool)
    (f : α → β') (hc : ∀ a b, ge' (f a) (f b) = ge a b) (x : α) (l : List α) :
    insertDesc ge' (f x) (l.map f) = (insertDesc ge x l).map f := by
  induction l with
  | nil => rfl
  | cons y ys ih =>
    simp only [List.map, insertDesc, hc x y]
    split
    · rfl
    · simp [ih]

theorem sortDesc_map {α β' : Type} (ge : α → α → Bool) (ge' : β' → β' → Bool)
    (f : α → β') (hc : ∀ a b, ge' (f a) (f b) = ge a b) (l : List α) :
    sortDesc ge' (l.map f) = (sortDesc ge l).map f := by
  induction l with
  | nil => rfl
  | cons x xs ih =>
    simp only [List.map, sortDesc, ih]
    exact insertDesc_map ge ge' f hc x (sortDesc ge xs)

theorem updateTeam_some_eq (d : TeamsMap) (k : String) (f : Team → Team) (d' : TeamsMap)
    (h : updateTeam d k f = some d') :
    d' = d.map fun p => if p.1 = k then (p.1, f p.2) else p := by
  unfold updateTeam at h
  split at h
  · exact absurd h (by simp)
  · simp only [Option.some.injEq] at h
    exact h.symm

theorem updateTeam_keys (d : TeamsMap) (k : String) (f : Team → Team) (d' : TeamsMap)
    (h : updateTeam d k f = some d') : keys d' = keys d := by
  rw [updateTeam_some_eq d k f d' h, keys_map_update]

theorem updateTeam_lookup_ne (d : TeamsMap) (k : String) (f : Team → Team) (d' : TeamsMap)
    (j : String) (hj : j ≠ k) (h : updateTeam d k f = some d') :
    lookupD d' j = lookupD d j := by
  rw [updateTeam_some_eq d k f d' h]
  exact lookupD_update_ne d k j f hj

theorem updateTeam_inv_preserve (d : TeamsMap) (k : String) (f : Team → Team)
    (d' : TeamsMap) (hall : ∀ p ∈ d, Inv p.2) (hf : ∀ t, Inv t → Inv (f t))
    (h : updateTeam d k f = some d') : ∀ p ∈ d', Inv p.2 := by
  rw [updateTeam_some_eq d k f d' h]
  intro p hp
  obtain ⟨q, hq, rfl⟩ := List.mem_map.mp hp
  by_cases hqk : q.1 = k
  · simp only [if_pos hqk]
    exact hf q.2 (hall q hq)
  · simp only [if_neg hqk]
    exact hall q hq

theorem update_stats_inv (t : Team) (gf ga : ℤ) (h : Inv t) :
    Inv (t.update_stats gf ga) := by
  obtain ⟨h1, h2⟩ := h
  unfold Inv Team.update_stats
  split_ifs with hgt heq <;> refine ⟨?_, ?_⟩ <;> dsimp <;> omega

theorem simRem_nil_inv (selfT tc : TeamsMap) (rng : RNG)
    (out : TeamsMap × List Match × RNG)
    (h : simulate_remaining_matches selfT tc [] rng = some out) :
    out = (tc, [], rng) := by
  simp only [simulate_remaining_matches, Option.some.injEq] at h
  exact h.symm

theorem simRem_cons_played_inv (selfT tc : TeamsMap) (m : Match) (ms : List Match)
    (rng : RNG) (out : TeamsMap × List Match × RNG) (hm : m.played = true)
    (h : simulate_remaining_matches selfT tc (m :: ms) rng = some out) :
    ∃ tcf msf rngf,
      simulate_remaining_matches selfT tc ms rng = some (tcf, msf, rngf) ∧
      out = (tcf, m :: msf, rngf) := by
  rw [simulate_remaining_matches, if_pos hm] at h
  split at h
  · exact absurd h (by simp)
  next a b c hrec =>
    simp only [Option.some.injEq] at h
    exact ⟨a, b, c, hrec, h.symm⟩

theorem simRem_cons_unplayed_inv (selfT tc : TeamsMap) (m : Match) (ms : List Match)
    (rng : RNG) (out : TeamsMap × List Match × RNG) (hm : m.played = false)
    (h : simulate_remaining_matches selfT tc (m :: ms) rng = some out) :
    ∃ hs asc tc1 tc2 tcf msf rngf,
      simulate_match selfT m.home_team m.away_team (rng 0) (rng 1) = some (hs, asc) ∧
      updateTeam tc m.home_team (fun t => t.update_stats hs asc) = some tc1 ∧
      updateTeam tc1 m.away_team (fun t => t.update_stats asc hs) = some tc2 ∧
      simulate_remaining_matches selfT tc2 ms (shift 2 rng) = some (tcf, msf, rngf) ∧
      out = (tcf, m.set_result hs asc :: msf, rngf) := by
  rw [simulate_remaining_matches, if_neg (by simp [hm])] at h
  split at h
  · exact absurd h (by simp)
  next hs asc hsm =>
    split at h
    · exact absurd h (by simp)
    next tc1 hu1 =>
      split at h
      · exact absurd h (by simp)
      next tc2 hu2 =>
        split at h
        · exact absurd h (by simp)
        next a b c hrec =>
          simp only [Option.some.injEq] at h
          exact ⟨hs, asc, tc1, tc2, a, b, c, hsm, hu1, hu2, hrec, h.symm⟩

theorem simRem_keys (selfT : TeamsMap) :
    ∀ (ms : List Match) (tc : TeamsMap) (rng : RNG) (tc' : TeamsMap)
      (ms' : List Match) (rng' : RNG),
      simulate_remaining_matches selfT tc ms rng = some (tc', ms', rng') →
      keys tc' = keys tc := by
  intro ms
  induction ms with
  | nil =>
    intro tc rng tc' ms' rng' h
    have := simRem_nil_inv selfT tc rng _ h
    simp only [Prod.mk.injEq] at this
    rw [this.1]
  | cons m ms ih =>
    intro tc rng tc' ms' rng' h
    cases hm : m.played with
    | true =>
      obtain ⟨a, b, c, hrec, hout⟩ := simRem_cons_played_inv selfT tc m ms rng _ hm h
      simp only [Prod.mk.injEq] at hout
      rw [hout.1]
      exact ih tc rng a b c hrec
    | false =>
      obtain ⟨hs, asc, tc1, tc2, a, b, c, _, hu1, hu2, hrec, hout⟩ :=
        simRem_cons_unplayed_inv selfT tc m ms rng _ hm h
      simp only [Prod.mk.injEq] at hout
      rw [hout.1]
      rw [ih tc2 (shift 2 rng) a b c hrec]
      rw [updateTeam_keys _ _ _ _ hu2, updateTeam_keys _ _ _ _ hu1]

theorem simRem_inv (selfT : TeamsMap) :
    ∀ (ms : List Match) (tc : TeamsMap) (rng : RNG) (tc' : TeamsMap)
      (ms' : List Match) (rng' : RNG),
      (∀ p ∈ tc, Inv p.2) →
      simulate_remaining_matches selfT tc ms rng = some (tc', ms', rng') →
      ∀ p ∈ tc', Inv p.2 := by
  intro ms
  induction ms with
  | nil =>
    intro tc rng tc' ms' rng' hall h
    have := simRem_nil_inv selfT tc rng _ h
    simp only [Prod.mk.injEq] at this
    rw [this.1]
    exact hall
  | cons m ms ih =>
    intro tc rng tc' ms' rng' hall h
    cases hm : m.played with
    | true =>
      obtain ⟨a, b, c, hrec, hout⟩ := simRem_cons_played_inv selfT tc m ms rng _ hm h
      simp only [Prod.mk.injEq] at hout
      rw [hout.1]
      exact ih tc rng a b c hall hrec
    | false =>
      obtain ⟨hs, asc, tc1, tc2, a, b, c, _, hu1, hu2, hrec, hout⟩ :=
        simRem_cons_unplayed_inv selfT tc m ms rng _ hm h
      simp only [Prod.mk.injEq] at hout
      rw [hout.1]
      have htc1 : ∀ p ∈ tc1, Inv p.2 :=
        updateTeam_inv_preserve tc m.home_team _ tc1 hall
          (fun t ht => update_stats_inv t hs asc ht) hu1
      have htc2 : ∀ p ∈ tc2, Inv p.2 :=
        updateTeam_inv_preserve tc1 m.away_team _ tc2 htc1
          (fun t ht => update_stats_inv t asc hs ht) hu2
      exact ih tc2 (shift 2 rng) a b c htc2 hrec

theorem simRem_lookup_frame (selfT : TeamsMap) (t : String) :
    ∀ (ms : List Match) (tc : TeamsMap) (rng : RNG) (tc' : TeamsMap)
      (ms' : List Match) (rng' : RNG),
      (∀ m ∈ ms, m.played = false → m.home_team ≠ t ∧ m.away_team ≠ t) →
      simulate_remaining_matches selfT tc ms rng = some (tc', ms', rng') →
      lookupD tc' t = lookupD tc t := by
  intro ms
  induction ms with
  | nil =>
    intro tc rng tc' ms' rng' _ h
    have := simRem_nil_inv selfT tc rng _ h
    simp only [Prod.mk.injEq] at this
    rw [this.1]
  | cons m ms ih =>
    intro tc rng tc' ms' rng' hno h
    cases hm : m.played with
    | true =>
      obtain ⟨a, b, c, hrec, hout⟩ := simRem_cons_played_inv selfT tc m ms rng _ hm h
      simp only [Prod.mk.injEq] at hout
      rw [hout.1]
      exact ih tc rng a b c (fun mm hmm => hno mm (List.mem_cons_of_mem m hmm)) hrec
    | false =>
      obtain ⟨hs, asc, tc1, tc2, a, b, c, _, hu1, hu2, hrec, hout⟩ :=
        simRem_cons_unplayed_inv selfT tc m ms rng _ hm h
      simp only [Prod.mk.injEq] at hout
      rw [hout.1]
      obtain ⟨hhome, haway⟩ := hno m (List.mem_cons_self m ms) hm
      rw [ih tc2 (shift 2 rng) a b c
        (fun mm hmm => hno mm (List.mem_cons_of_mem m hmm)) hrec]
      rw [updateTeam_lookup_ne tc1 m.away_team _ tc2 t (Ne.symm haway) hu2]
      rw [updateTeam_lookup_ne tc m.home_team _ tc1 t (Ne.symm hhome) hu1]

/-- C1: the claim fails on the code. With two successive unplayed `H` vs `A`
fixtures and fresh teams, the outcome of the second fixture is computed from
the frozen snapshot points of `H`, not from the points `H` gained by winning
the first simulated fixture: the code and the spec-modelled working-records
engine produce different final records from the same snapshot and stream. -/
theorem run_outcomes_differ_from_working_records :
    (simulate_remaining_matches tX tX msX rngX).map (fun p => p.1) ≠
      (specSimulateRemaining tX msX rngX).map (fun p => p.1) := by
  have hc : (simulate_remaining_matches tX tX msX rngX).map (fun p => p.1) =
      some [("H", ⟨"H", 2, 2, 0, 0, 4, 0, 6⟩), ("A", ⟨"A", 2, 0, 0, 2, 0, 4, 0⟩)] := by
    norm_num [show ("H":String) ≠ "A" from by decide, show ("A":String) ≠ "H" from by decide,
      simulate_remaining_matches, simulate_match, matchScore,
      gaussScore, truncToZero, lookupD, updateTeam, Team.update_stats, Match.set_result,
      max_def, shift, rngX, tX, msX, team0, unplayedFixture, rngOf]
  have hsp : (specSimulateRemaining tX msX rngX).map (fun p => p.1) =
      some [("H", ⟨"H", 2, 2, 0, 0, 5, 0, 6⟩), ("A", ⟨"A", 2, 0, 0, 2, 0, 5, 0⟩)] := by
    norm_num [show ("H":String) ≠ "A" from by decide, show ("A":String) ≠ "H" from by decide,
      specSimulateRemaining, simulate_match, matchScore,
      gaussScore, truncToZero, lookupD, updateTeam, Team.update_stats, Match.set_result,
      max_def, shift, rngX, tX, msX, team0, unplayedFixture, rngOf]
  rw [hc, hsp]
  decide

/-- C1 (amended): in every run, each unplayed fixture outcome is computed
from the two teams **frozen snapshot** records (`self.teams`), never from the
working records of the run: whatever working set `tc` the engine carries, the
fixture results it writes are exactly the ones computed from the snapshot
alone, fixture by fixture in snapshot order. -/
theorem run_outcomes_use_frozen_snapshot_records (selfT : TeamsMap) :
    ∀ (ms : List Match) (tc : TeamsMap) (rng : RNG) (tc' : TeamsMap)
      (ms' : List Match) (rng' : RNG),
      simulate_remaining_matches selfT tc ms rng = some (tc', ms', rng') →
      frozenScores selfT ms rng = some ms' := by
  intro ms
  induction ms with
  | nil =>
    intro tc rng tc' ms' rng' h
    have := simRem_nil_inv selfT tc rng _ h
    simp only [Prod.mk.injEq] at this
    rw [frozenScores, this.2.1]
  | cons m ms ih =>
    intro tc rng tc' ms' rng' h
    cases hm : m.played with
    | true =>
      obtain ⟨a, b, c, hrec, hout⟩ := simRem_cons_played_inv selfT tc m ms rng _ hm h
      simp only [Prod.mk.injEq] at hout
      rw [frozenScores, if_pos hm, ih tc rng a b c hrec, hout.2.1]
    | false =>
      obtain ⟨hs, asc, tc1, tc2, a, b, c, hsm, hu1, hu2, hrec, hout⟩ :=
        simRem_cons_unplayed_inv selfT tc m ms rng _ hm h
      simp only [Prod.mk.injEq] at hout
      rw [frozenScores, if_neg (by simp [hm]), hsm, ih tc2 (shift 2 rng) a b c hrec,
        hout.2.1]

/-- C1 witness: the amended theorem applied to the concrete snapshot `tX`,
fixtures `msX` and stream `rngX`. -/
theorem run_outcomes_use_frozen_snapshot_records_witness :
    frozenScores tX msX rngX =
      some [⟨"H", "A", 1, some 3, some 0, true⟩, ⟨"H", "A", 1, some 1, some 0, true⟩] :=
  run_outcomes_use_frozen_snapshot_records tX msX tX rngX
    [("H", ⟨"H", 2, 2, 0, 0, 4, 0, 6⟩), ("A", ⟨"A", 2, 0, 0, 2, 0, 4, 0⟩)]
    [⟨"H", "A", 1, some 3, some 0, true⟩, ⟨"H", "A", 1, some 1, some 0, true⟩]
    (shift 2 (shift 2 rngX))
    (by norm_num [show ("H":String) ≠ "A" from by decide, show ("A":String) ≠ "H" from by decide,
      simulate_remaining_matches, simulate_match, matchScore,
      gaussScore, truncToZero, lookupD, updateTeam, Team.update_stats, Match.set_result,
      max_def, shift, rngX, tX, msX, team0, unplayedFixture, rngOf])

theorem simLoop_obj_state : ∀ (k : ℕ) (s : Simulator) (st : SimState) (rng : RNG)
    (st' : SimState) (s' : Simulator) (rng' : RNG),
    simLoop_obj k s st rng = some (st', s', rng') → s' = s := by
  intro k
  induction k with
  | zero =>
    intro s st rng st' s' rng' h
    simp only [simLoop_obj, Option.some.injEq, Prod.mk.injEq] at h
    exact h.2.1.symm
  | succ k ih =>
    intro s st rng st' s' rng' h
    rw [simLoop_obj] at h
    split at h
    · exact absurd h (by simp)
    next fp s1 rng1 hstep =>
      have hs1 : s1 = s := by
        simp only [run_single_simulation_obj] at hstep
        split at hstep
        · exact absurd hstep (by simp)
        · simp only [Option.some.injEq, Prod.mk.injEq] at hstep
          exact hstep.2.1.symm
      rw [← hs1]
      exact ih s1 _ rng1 st' s' rng' h

/-- C4: for any two team records and any two standard-normal draws,
`simulate_match` computes the home expected goals as
`max(0.5, (home.points + 10) / 10)`, the away expected goals as
`max(0.5, away.points / 10)`, forms each score as the normal sample
`mu + 1.5 * z`, clamps a negative sample to zero, truncates toward zero, and
returns a pair of non-negative integers rather than failing. -/
theorem simulate_match_clamps_and_truncates (selfT : TeamsMap) (hn an : String)
    (home away : Team) (z1 z2 : ℚ)
    (hh : lookupD selfT hn = some home) (ha : lookupD selfT an = some away) :
    simulate_match selfT hn an z1 z2
      = some (truncToZero (max 0 (max (1/2) (((home.points : ℚ) + 10) / 10) + 3/2 * z1)),
              truncToZero (max 0 (max (1/2) ((away.points : ℚ) / 10) + 3/2 * z2)))
    ∧ 0 ≤ truncToZero (max 0 (max (1/2) (((home.points : ℚ) + 10) / 10) + 3/2 * z1))
    ∧ 0 ≤ truncToZero (max 0 (max (1/2) ((away.points : ℚ) / 10) + 3/2 * z2)) := by
  refine ⟨?_, ?_, ?_⟩
  · unfold simulate_match
    rw [hh, ha]
    simp only [matchScore, gaussScore]
    rw [truncToZero_max_zero, truncToZero_max_zero]
  · rw [truncToZero_max_zero]
    exact le_max_left _ _
  · rw [truncToZero_max_zero]
    exact le_max_left _ _

/-- C4 witness: the theorem applied to the fresh teams of `tX` and the draws
`4/3` and `-1`. -/
theorem simulate_match_clamps_and_truncates_witness :
    lookupD tX "H" = some (team0 "H") ∧ lookupD tX "A" = some (team0 "A") ∧
      (simulate_match tX "H" "A" (4/3) (-1)
        = some (truncToZero (max 0 (max (1/2) ((((team0 "H").points : ℚ) + 10) / 10) + 3/2 * (4/3))),
                truncToZero (max 0 (max (1/2) (((team0 "A").points : ℚ) / 10) + 3/2 * (-1))))
      ∧ 0 ≤ truncToZero (max 0 (max (1/2) ((((team0 "H").points : ℚ) + 10) / 10) + 3/2 * (4/3)))
      ∧ 0 ≤ truncToZero (max 0 (max (1/2) (((team0 "A").points : ℚ) / 10) + 3/2 * (-1)))) :=
  ⟨rfl, rfl,
    simulate_match_clamps_and_truncates tX "H" "A" (team0 "H") (team0 "A") (4/3) (-1) rfl rfl⟩

/-- C5: the claim fails on the code. Calling the aggregation with
`n_simulations = 0` on a concrete snapshot does not raise any error (there is
no ConfigError in the code): it returns normally with empty statistics and
`n_simulations = 0`. -/
theorem zero_runs_return_normally :
    run_simulations tY [] 0 rng0
      = some ({ final_positions := [], qualification_probability := [],
                average_points := [], points_range := [], n_simulations := 0 }, rng0) := rfl

/-- C5 (amended): with `run_count = 0` the aggregation performs no run,
raises no error, divides by nothing (all statistics maps are empty), and
returns empty statistics labelled with `n_simulations = 0`. -/
theorem zero_runs_yield_empty_statistics (selfT : TeamsMap) (selfM : List Match)
    (rng : RNG) :
    run_simulations selfT selfM 0 rng
      = some ({ final_positions := [], qualification_probability := [],
                average_points := [], points_range := [], n_simulations := 0 }, rng) := rfl

/-- C7: the snapshot is structurally unchanged by the aggregation: every run
works on its own copies, and the simulator object state after the call equals
the state before it, teams and fixtures alike. -/
theorem snapshot_unchanged_by_aggregation (s : Simulator) (n : ℕ) (rng : RNG)
    (res : SimResults) (s' : Simulator) (rng' : RNG)
    (h : run_simulations_obj s n rng = some (res, s', rng')) :
    s'.teams = s.teams ∧ s'.matchList = s.matchList := by
  unfold run_simulations_obj at h
  split at h
  · exact absurd h (by simp)
  next st s1 rng1 hloop =>
    simp only [Option.some.injEq, Prod.mk.injEq] at h
    have := simLoop_obj_state n s emptyState rng st s1 rng1 hloop
    rw [← h.2.1, this]
    exact ⟨rfl, rfl⟩

/-- C7 witness: the theorem applied to the concrete snapshot `⟨tX, msX⟩`. -/
theorem snapshot_unchanged_by_aggregation_witness :
    run_simulations_obj ⟨tX, msX⟩ 0 rngX
        = some ({ final_positions := [], qualification_probability := [],
                  average_points := [], points_range := [], n_simulations := 0 },
                ⟨tX, msX⟩, rngX)
    ∧ (⟨tX, msX⟩ : Simulator).teams = tX ∧ (⟨tX, msX⟩ : Simulator).matchList = msX :=
  ⟨rfl, snapshot_unchanged_by_aggregation ⟨tX, msX⟩ 0 rngX _ _ _ rfl⟩

/-- C8: if every starting record satisfies `points = 3*wins + draws` and
`matches_played = wins + draws + losses`, then every record of the run
outcome satisfies it too, and each single `update_stats` call preserves it. -/
theorem run_outcome_satisfies_invariant (selfT tc : TeamsMap) (ms : List Match)
    (rng : RNG) (tc' : TeamsMap) (ms' : List Match) (rng' : RNG)
    (hstart : ∀ p ∈ tc, Inv p.2)
    (h : simulate_remaining_matches selfT tc ms rng = some (tc', ms', rng')) :
    (∀ p ∈ tc', Inv p.2) ∧
      ∀ (t : Team) (gf ga : ℤ), Inv t → Inv (t.update_stats gf ga) :=
  ⟨simRem_inv selfT ms tc rng tc' ms' rng' hstart h,
    fun t gf ga ht => update_stats_inv t gf ga ht⟩

/-- C8 witness: the theorem applied to the concrete run of `msX` from `tX`. -/
theorem run_outcome_satisfies_invariant_witness :
    (∀ p ∈ tX, Inv p.2) ∧
      ((∀ p ∈ [("H", (⟨"H", 2, 2, 0, 0, 4, 0, 6⟩ : Team)),
               ("A", (⟨"A", 2, 0, 0, 2, 0, 4, 0⟩ : Team))], Inv p.2) ∧
        ∀ (t : Team) (gf ga : ℤ), Inv t → Inv (t.update_stats gf ga)) :=
  ⟨by decide,
    run_outcome_satisfies_invariant tX tX msX rngX
      [("H", ⟨"H", 2, 2, 0, 0, 4, 0, 6⟩), ("A", ⟨"A", 2, 0, 0, 2, 0, 4, 0⟩)]
      [⟨"H", "A", 1, some 3, some 0, true⟩, ⟨"H", "A", 1, some 1, some 0, true⟩]
      (shift 2 (shift 2 rngX))
      (by decide)
      (by norm_num [show ("H":String) ≠ "A" from by decide, show ("A":String) ≠ "H" from by decide,
        simulate_remaining_matches, simulate_match, matchScore,
        gaussScore, truncToZero, lookupD, updateTeam, Team.update_stats, Match.set_result,
        max_def, shift, rngX, tX, msX, team0, unplayedFixture, rngOf])⟩

/-- C9: a team that appears in no unplayed fixture of the snapshot keeps its
pre-simulation points in the final points of every run. -/
theorem idle_team_points_unchanged (selfT : TeamsMap) (selfM : List Match)
    (rng : RNG) (fp : List (String × ℤ)) (rng' : RNG) (t : String)
    (hno : ∀ m ∈ selfM, m.played = false → m.home_team ≠ t ∧ m.away_team ≠ t)
    (h : run_single_simulation selfT selfM rng = some (fp, rng')) :
    lookupD fp t = (lookupD selfT t).map Team.points := by
  unfold run_single_simulation at h
  split at h
  · exact absurd h (by simp)
  next a b c hrec =>
    simp only [Option.some.injEq, Prod.mk.injEq] at h
    rw [← h.1, lookupD_map_val]
    rw [simRem_lookup_frame selfT t selfM selfT rng a b c hno hrec]

/-- C9 witness: team `C` of `tW` plays in no unplayed fixture of `msX`, and
its final points in the concrete run equal its snapshot points. -/
theorem idle_team_points_unchanged_witness :
    (∀ m ∈ msX, m.played = false → m.home_team ≠ "C" ∧ m.away_team ≠ "C") ∧
      lookupD [("H", (6:ℤ)), ("A", 0), ("C", 6)] "C" = (lookupD tW "C").map Team.points :=
  ⟨by decide,
    idle_team_points_unchanged tW msX rngX [("H", 6), ("A", 0), ("C", 6)]
      (shift 2 (shift 2 rngX)) "C" (by decide)
      (by norm_num [show ("H":String) ≠ "A" from by decide, show ("A":String) ≠ "H" from by decide,
        show ("H":String) ≠ "C" from by decide, show ("C":String) ≠ "H" from by decide,
        show ("A":String) ≠ "C" from by decide, show ("C":String) ≠ "A" from by decide,
        run_single_simulation, simulate_remaining_matches, simulate_match, matchScore,
        gaussScore, truncToZero, lookupD, updateTeam, Team.update_stats, Match.set_result,
        max_def, shift, rngX, tW, msX, team0, unplayedFixture, rngOf])⟩

theorem keys_map_val {β γ : Type} (g : β → γ) (d : List (String × β)) :
    keys (d.map fun p => (p.1, g p.2)) = keys d := by
  unfold keys
  rw [List.map_map]
  rfl

/-- C2: the claim fails on the code. With the two teams of `tY` tied on
points but with opposite goal differences, a run with no unplayed fixture
ranks `A` first (stable sort on points alone, dict order), while the
canonical standings of the same final records rank `B` first. -/
theorem run_ranking_disagrees_with_canonical :
    ((run_simulations tY [] 1 rng0).map
        (fun p => (lookupD p.1.final_positions "A").map (fun h => h 1))) = some (some 1)
    ∧ (get_standings tY).map Team.name = ["B", "A"] := by
  constructor
  · decide
  · decide

/-- C2 (amended): the per-run rank order is the stable descending sort on
points alone; it coincides with the canonical `get_standings` order on the
same records whenever no two teams are tied on points (with ties the two
orders can differ, since the run ranking ignores goal difference and goals
scored). -/
theorem run_ranking_matches_canonical_on_distinct_points (tc : TeamsMap)
    (hname : ∀ p ∈ tc, Team.name p.2 = p.1)
    (hpts : (tc.map (fun p => p.2.points)).Nodup) :
    (sortByPoints (tc.map fun p => (p.1, p.2.points))).map (fun q => q.1)
      = (get_standings tc).map Team.name := by
  have h1 : sortByPoints (tc.map fun p => (p.1, p.2.points))
      = (sortDesc (fun a b : String × Team => decide (b.2.points ≤ a.2.points)) tc).map
          (fun p => (p.1, p.2.points)) := by
    unfold sortByPoints
    exact sortDesc_map _ ptsGE (fun p => (p.1, p.2.points)) (fun a b => rfl) tc
  have h2 : sortDesc tripleGE (tc.map fun p => p.2)
      = (sortDesc (fun a b : String × Team => tripleGE a.2 b.2) tc).map (fun p => p.2) :=
    sortDesc_map _ tripleGE (fun p => p.2) (fun a b => rfl) tc
  have h3 : sortDesc (fun a b : String × Team => decide (b.2.points ≤ a.2.points)) tc
      = sortDesc (fun a b : String × Team => tripleGE a.2 b.2) tc := by
    refine sortDesc_congr _ _ tc (fun a ha => fun b hb => ?_)
    by_cases heq : a.2.points = b.2.points
    · have hab : a = b :=
        List.inj_on_of_nodup_map hpts ha hb (by simpa using heq)
      subst hab
      simp [tripleGE, lexLE, tripleKey]
    · have hlt : (b.2.points ≤ a.2.points) ↔ (b.2.points < a.2.points) := by
        constructor
        · intro hle
          exact lt_of_le_of_ne hle (fun hh => heq hh.symm)
        · exact le_of_lt
      simp only [tripleGE, lexLE, tripleKey]
      rw [decide_eq_decide]
      constructor
      · intro hle
        exact Or.inl (hlt.mp hle)
      · rintro (hl | ⟨hfe, _⟩)
        · exact hlt.mpr hl
        · exact absurd hfe.symm heq
  unfold get_standings
  rw [h1, h2, h3, List.map_map, List.map_map]
  refine List.map_congr_left (fun p hp => ?_)
  have hpmem : p ∈ tc := (mem_sortDesc _ tc p).mp hp
  simp only [Function.comp]
  exact (hname p hpmem).symm

/-- C2 witness: the amended theorem applied to `tZ`, whose two teams have
distinct point totals. -/
theorem run_ranking_matches_canonical_witness :
    (∀ p ∈ tZ, Team.name p.2 = p.1) ∧ ((tZ.map (fun p => p.2.points)).Nodup) ∧
      (sortByPoints (tZ.map fun p => (p.1, p.2.points))).map (fun q => q.1)
        = (get_standings tZ).map Team.name :=
  ⟨by decide, by decide,
    run_ranking_matches_canonical_on_distinct_points tZ (by decide) (by decide)⟩

theorem simLoop_seeded (selfT : TeamsMap) (selfM : List Match) (rng : RNG) :
    ∀ (k i : ℕ) (st : SimState),
      (simLoop selfT selfM k st (shift (2 * unplayedCount selfM * i) rng)).map (fun p => p.1)
        = seededLoop selfT selfM rng k i st := by
  intro k
  induction k with
  | zero => intro i st; rfl
  | succ k ih =>
    intro i st
    rw [simLoop, seededLoop]
    cases hstep : run_single_simulation selfT selfM
        (shift (2 * unplayedCount selfM * i) rng) with
    | none => rfl
    | some pr =>
      obtain ⟨fp, rng1⟩ := pr
      show (simLoop selfT selfM k (recordRun st (sortByPoints fp)) rng1).map (fun p => p.1)
          = seededLoop selfT selfM rng k (i + 1) (recordRun st (sortByPoints fp))
      have hrng : rng1 = shift (2 * unplayedCount selfM)
          (shift (2 * unplayedCount selfM * i) rng) :=
        run_single_rng_advance selfT selfM _ fp rng1 hstep
      rw [hrng, shift_shift]
      have harith : 2 * unplayedCount selfM + 2 * unplayedCount selfM * i
          = 2 * unplayedCount selfM * (i + 1) := by ring
      rw [harith]
      exact ih (i + 1) (recordRun st (sortByPoints fp))

/-- C3: with the global random module modelled as an explicit stream, the
aggregation is a pure function of the snapshot, the run count and the
stream, hence identical across re-executions given the same seed; and it
equals the seeded decomposition in which run `i` reads only its own,
non-overlapping block of draws, at offsets `[2*m*i, 2*m*(i+1))` for `m`
unplayed fixtures. The code is sequential, so the worker count is fixed at
one and cannot affect the result. -/
theorem aggregation_deterministic_seeded_runs (selfT : TeamsMap)
    (selfM : List Match) (n : ℕ) (rng : RNG) :
    (run_simulations selfT selfM n rng).map (fun p => p.1)
      = (seededLoop selfT selfM rng n 0 emptyState).map (fun st => finalize st n) := by
  unfold run_simulations
  have h := simLoop_seeded selfT selfM rng n 0 emptyState
  rw [mul_zero] at h
  have h0 : shift 0 rng = rng := rfl
  rw [h0] at h
  cases hloop : simLoop selfT selfM n emptyState rng with
  | none =>
    rw [← h, hloop]
    rfl
  | some pr =>
    obtain ⟨st, rng2⟩ := pr
    rw [← h, hloop]
    rfl

theorem recordTeam_qcVal_self (st : SimState) (pos : ℕ) (nm : String) (pts : ℤ) :
    qcVal (recordTeam st pos nm pts) nm
      = qcVal st nm + (if pos ≤ qualificationCutoff then 1 else 0) := by
  unfold recordTeam qcVal
  split_ifs with hpos
  · dsimp only
    rw [bump_lookup_self]
    simp
  · simp

theorem recordTeam_qcVal_ne (st : SimState) (pos : ℕ) (nm : String) (pts : ℤ)
    (t : String) (ht : t ≠ nm) :
    qcVal (recordTeam st pos nm pts) t = qcVal st t := by
  unfold recordTeam qcVal
  split_ifs with hpos
  · dsimp only
    rw [bump_lookup_ne _ _ _ _ _ ht]
  · rfl

theorem recordTeam_histVal_self (st : SimState) (pos : ℕ) (nm : String) (pts : ℤ) :
    histVal (recordTeam st pos nm pts) nm pos = histVal st nm pos + 1 := by
  unfold recordTeam histVal
  split_ifs with hpos <;>
  · dsimp only
    rw [bump_lookup_self]
    simp

theorem recordTeam_histVal_ne (st : SimState) (pos : ℕ) (nm : String) (pts : ℤ)
    (t : String) (q : ℕ) (ht : t ≠ nm) :
    histVal (recordTeam st pos nm pts) t q = histVal st t q := by
  unfold recordTeam histVal
  split_ifs with hpos <;>
  · dsimp only
    rw [bump_lookup_ne _ _ _ _ _ ht]

theorem recordAux_frame :
    ∀ (rl : List (String × ℤ)) (pos : ℕ) (st : SimState) (t : String),
      t ∉ rl.map (fun p => p.1) →
      qcVal (recordAux pos st rl) t = qcVal st t ∧
      (∀ q, histVal (recordAux pos st rl) t q = histVal st t q) := by
  intro rl
  induction rl with
  | nil => intro pos st t _; exact ⟨rfl, fun q => rfl⟩
  | cons p rest ih =>
    intro pos st t hmem
    obtain ⟨nm, pts⟩ := p
    simp only [List.map_cons, List.mem_cons, not_or] at hmem
    obtain ⟨ht, hrest⟩ := hmem
    simp only [recordAux]
    obtain ⟨ihq, ihh⟩ := ih (pos + 1) (recordTeam st pos nm pts) t hrest
    refine ⟨?_, fun q => ?_⟩
    · rw [ihq, recordTeam_qcVal_ne _ _ _ _ _ ht]
    · rw [ihh q, recordTeam_histVal_ne _ _ _ _ _ _ ht]

theorem recordAux_effect :
    ∀ (rl : List (String × ℤ)) (pos : ℕ) (st : SimState) (j : ℕ) (hj : j < rl.length),
      (rl.map (fun p => p.1)).Nodup →
      qcVal (recordAux pos st rl) (rl.get ⟨j, hj⟩).1
          = qcVal st (rl.get ⟨j, hj⟩).1 + (if pos + j ≤ qualificationCutoff then 1 else 0)
      ∧ histVal (recordAux pos st rl) (rl.get ⟨j, hj⟩).1 (pos + j)
          = histVal st (rl.get ⟨j, hj⟩).1 (pos + j) + 1 := by
  intro rl
  induction rl with
  | nil => intro pos st j hj _; exact absurd hj (by simp)
  | cons p rest ih =>
    intro pos st j hj hnd
    obtain ⟨nm, pts⟩ := p
    simp only [List.map_cons, List.nodup_cons] at hnd
    obtain ⟨hnotin, hnd'⟩ := hnd
    simp only [recordAux]
    cases j with
    | zero =>
      obtain ⟨hq, hh⟩ := recordAux_frame rest (pos + 1) (recordTeam st pos nm pts) nm hnotin
      refine ⟨?_, ?_⟩
      · show qcVal (recordAux (pos + 1) (recordTeam st pos nm pts) rest) nm
            = qcVal st nm + (if pos ≤ qualificationCutoff then 1 else 0)
        rw [hq, recordTeam_qcVal_self]
      · show histVal (recordAux (pos + 1) (recordTeam st pos nm pts) rest) nm pos
            = histVal st nm pos + 1
        rw [hh pos, recordTeam_histVal_self]
    | succ j' =>
      have hj' : j' < rest.length := by
        simp only [List.length_cons] at hj
        omega
      have ihres := ih (pos + 1) (recordTeam st pos nm pts) j' hj' hnd'
      have hne : (rest.get ⟨j', hj'⟩).1 ≠ nm := by
        intro hh
        exact hnotin (hh ▸ List.mem_map_of_mem (fun p => p.1) (List.get_mem rest j' hj'))
      refine ⟨?_, ?_⟩
      · show qcVal (recordAux (pos + 1) (recordTeam st pos nm pts) rest) (rest.get ⟨j', hj'⟩).1
            = qcVal st (rest.get ⟨j', hj'⟩).1
              + (if pos + (j' + 1) ≤ qualificationCutoff then 1 else 0)
        rw [show pos + (j' + 1) = (pos + 1) + j' by omega]
        rw [ihres.1, recordTeam_qcVal_ne _ _ _ _ _ hne]
      · show histVal (recordAux (pos + 1) (recordTeam st pos nm pts) rest)
              (rest.get ⟨j', hj'⟩).1 (pos + (j' + 1))
            = histVal st (rest.get ⟨j', hj'⟩).1 (pos + (j' + 1)) + 1
        rw [show pos + (j' + 1) = (pos + 1) + j' by omega]
        rw [ihres.2, recordTeam_histVal_ne _ _ _ _ _ _ hne]

/-- C6: when a run is folded into the accumulators, the team at 1-based
position `j + 1` of the resolved ranking has its histogram entry at that
position incremented by exactly 1, and its qualification counter incremented
by exactly 1 when `j + 1 ≤ 8` (the hardcoded cutoff) and left unchanged
otherwise. -/
theorem recording_increments_histogram_and_qualification (st : SimState)
    (rl : List (String × ℤ)) (hnd : (rl.map (fun p => p.1)).Nodup)
    (j : ℕ) (hj : j < rl.length) :
    qcVal (recordRun st rl) (rl.get ⟨j, hj⟩).1
        = qcVal st (rl.get ⟨j, hj⟩).1 + (if j + 1 ≤ qualificationCutoff then 1 else 0)
    ∧ histVal (recordRun st rl) (rl.get ⟨j, hj⟩).1 (j + 1)
        = histVal st (rl.get ⟨j, hj⟩).1 (j + 1) + 1 := by
  have h := recordAux_effect rl 1 st j hj hnd
  rw [show 1 + j = j + 1 from Nat.add_comm 1 j] at h
  exact h

/-- C6 witness: the theorem applied to a concrete two-team ranking recorded
into empty accumulators. -/
theorem recording_increments_witness :
    (([("A", (5:ℤ)), ("B", 3)].map (fun p => p.1)).Nodup) ∧
      (qcVal (recordRun emptyState [("A", 5), ("B", 3)]) "A"
          = qcVal emptyState "A" + (if 0 + 1 ≤ qualificationCutoff then 1 else 0)
        ∧ histVal (recordRun emptyState [("A", 5), ("B", 3)]) "A" (0 + 1)
          = histVal emptyState "A" (0 + 1) + 1) :=
  ⟨by decide,
    recording_increments_histogram_and_qualification emptyState
      [("A", 5), ("B", 3)] (by decide) 0 (by decide)⟩

theorem qualAt_false_of_gt (t : String) :
    ∀ (rl : List (String × ℤ)) (pos : ℕ), qualificationCutoff < pos →
      qualAt t pos rl = false := by
  intro rl
  induction rl with
  | nil => intro pos _; rfl
  | cons p ps ih =>
    intro pos hpos
    rw [qualAt]
    split
    · simp [Nat.not_le.mpr hpos]
    · exact ih (pos + 1) (by omega)

theorem recordTeam_qc_mem (st : SimState) (pos : ℕ) (nm : String) (pts : ℤ)
    (t : String) :
    t ∈ keys (recordTeam st pos nm pts).qualification_count
      ↔ t ∈ keys st.qualification_count ∨ (t = nm ∧ pos ≤ qualificationCutoff) := by
  unfold recordTeam
  split_ifs with hpos
  · dsimp only
    rw [keys_bump_mem]
    constructor
    · rintro (h | h)
      · exact Or.inl h
      · exact Or.inr ⟨h, hpos⟩
    · rintro (h | ⟨h, _⟩)
      · exact Or.inl h
      · exact Or.inr h
  · dsimp only
    constructor
    · exact Or.inl
    · rintro (h | ⟨_, hc⟩)
      · exact h
      · exact absurd hc hpos

theorem recordAux_qc_mem :
    ∀ (rl : List (String × ℤ)) (pos : ℕ) (st : SimState) (t : String),
      t ∈ keys (recordAux pos st rl).qualification_count
        ↔ t ∈ keys st.qualification_count ∨ qualAt t pos rl = true := by
  intro rl
  induction rl with
  | nil =>
    intro pos st t
    simp [recordAux, qualAt]
  | cons p rest ih =>
    intro pos st t
    obtain ⟨nm, pts⟩ := p
    simp only [recordAux]
    rw [ih (pos + 1) (recordTeam st pos nm pts) t, recordTeam_qc_mem, qualAt]
    by_cases hnm : nm = t
    · subst hnm
      rw [if_pos rfl]
      by_cases hpos : pos ≤ qualificationCutoff
      · simp [hpos]
      · rw [qualAt_false_of_gt nm rest (pos + 1) (by omega)]
        simp [hpos]
    · rw [if_neg hnm]
      have htnm : ¬t = nm := fun hh => hnm hh.symm
      constructor
      · rintro ((h | ⟨he, _⟩) | h)
        · exact Or.inl h
        · exact absurd he htnm
        · exact Or.inr h
      · rintro (h | h)
        · exact Or.inl (Or.inl h)
        · exact Or.inr h

theorem recordTeam_pd_mem (st : SimState) (pos : ℕ) (nm : String) (pts : ℤ)
    (t : String) :
    t ∈ keys (recordTeam st pos nm pts).points_distribution
      ↔ t ∈ keys st.points_distribution ∨ t = nm := by
  unfold recordTeam
  split_ifs with hpos <;>
  · dsimp only
    rw [keys_bump_mem]

theorem recordAux_pd_mem :
    ∀ (rl : List (String × ℤ)) (pos : ℕ) (st : SimState) (t : String),
      t ∈ keys (recordAux pos st rl).points_distribution
        ↔ t ∈ keys st.points_distribution ∨ t ∈ rl.map (fun p => p.1) := by
  intro rl
  induction rl with
  | nil =>
    intro pos st t
    simp [recordAux]
  | cons p rest ih =>
    intro pos st t
    obtain ⟨nm, pts⟩ := p
    simp only [recordAux]
    rw [ih (pos + 1) (recordTeam st pos nm pts) t, recordTeam_pd_mem]
    simp only [List.map_cons, List.mem_cons]
    constructor
    · rintro ((h | h) | h)
      · exact Or.inl h
      · exact Or.inr (Or.inl h)
      · exact Or.inr (Or.inr h)
    · rintro (h | (h | h))
      · exact Or.inl (Or.inl h)
      · exact Or.inl (Or.inr h)
      · exact Or.inr h

theorem run_single_fp_keys (selfT : TeamsMap) (selfM : List Match) (rng : RNG)
    (fp : List (String × ℤ)) (rng' : RNG)
    (h : run_single_simulation selfT selfM rng = some (fp, rng')) :
    keys fp = keys selfT := by
  unfold run_single_simulation at h
  split at h
  · exact absurd h (by simp)
  next a b c hrec =>
    simp only [Option.some.injEq, Prod.mk.injEq] at h
    rw [← h.1, keys_map_val]
    exact simRem_keys selfT selfM selfT rng a b c hrec

theorem mem_keys_sortByPoints (fp : List (String × ℤ)) (t : String) :
    t ∈ keys (sortByPoints fp) ↔ t ∈ keys fp :=
  ((sortDesc_perm ptsGE fp).map (fun p => p.1)).mem_iff

theorem simLoop_qc_mem (selfT : TeamsMap) (selfM : List Match) (rng : RNG) :
    ∀ (k i : ℕ) (st stf : SimState) (rngf : RNG),
      simLoop selfT selfM k st (shift (2 * unplayedCount selfM * i) rng)
        = some (stf, rngf) →
      ∀ t, t ∈ keys stf.qualification_count
        ↔ t ∈ keys st.qualification_count
          ∨ ∃ j, j < k ∧ runQualifies selfT selfM rng t (i + j) = true := by
  intro k
  induction k with
  | zero =>
    intro i st stf rngf h t
    simp only [simLoop, Option.some.injEq, Prod.mk.injEq] at h
    rw [← h.1]
    simp
  | succ k ih =>
    intro i st stf rngf h t
    rw [simLoop] at h
    split at h
    · exact absurd h (by simp)
    next fp rng1 hstep =>
      have hrng1 : rng1 = shift (2 * unplayedCount selfM * (i + 1)) rng := by
        rw [run_single_rng_advance selfT selfM _ fp rng1 hstep, shift_shift]
        have : 2 * unplayedCount selfM + 2 * unplayedCount selfM * i
            = 2 * unplayedCount selfM * (i + 1) := by ring
        rw [this]
      rw [hrng1] at h
      have ihh := ih (i + 1) (recordRun st (sortByPoints fp)) stf rngf h t
      rw [ihh]
      have hmem1 : t ∈ keys (recordRun st (sortByPoints fp)).qualification_count
          ↔ t ∈ keys st.qualification_count
            ∨ qualAt t 1 (sortByPoints fp) = true :=
        recordAux_qc_mem (sortByPoints fp) 1 st t
      have hrq : runQualifies selfT selfM rng t i = qualifiesIn (sortByPoints fp) t := by
        unfold runQualifies
        rw [hstep]
      constructor
      · rintro (hmem | ⟨j, hjk, hq⟩)
        · rcases hmem1.mp hmem with hmem0 | hqa
          · exact Or.inl hmem0
          · refine Or.inr ⟨0, by omega, ?_⟩
            rw [Nat.add_zero, hrq]
            exact hqa
        · exact Or.inr ⟨j + 1, by omega,
            by rw [show i + (j + 1) = i + 1 + j by omega]; exact hq⟩
      · rintro (hmem0 | ⟨j, hjk, hq⟩)
        · exact Or.inl (hmem1.mpr (Or.inl hmem0))
        · cases j with
          | zero =>
            refine Or.inl (hmem1.mpr (Or.inr ?_))
            rw [Nat.add_zero, hrq] at hq
            exact hq
          | succ j' =>
            exact Or.inr ⟨j', by omega,
              by rw [show i + 1 + j' = i + (j' + 1) by omega]; exact hq⟩

theorem simLoop_pd_mono (selfT : TeamsMap) (selfM : List Match) (t : String) :
    ∀ (k : ℕ) (st stf : SimState) (r rngf : RNG),
      simLoop selfT selfM k st r = some (stf, rngf) →
      t ∈ keys st.points_distribution → t ∈ keys stf.points_distribution := by
  intro k
  induction k with
  | zero =>
    intro st stf r rngf h hm
    simp only [simLoop, Option.some.injEq, Prod.mk.injEq] at h
    rw [← h.1]
    exact hm
  | succ k ih =>
    intro st stf r rngf h hm
    rw [simLoop] at h
    split at h
    · exact absurd h (by simp)
    next fp rng1 hstep =>
      refine ih (recordRun st (sortByPoints fp)) stf rng1 rngf h ?_
      exact (recordAux_pd_mem (sortByPoints fp) 1 st t).mpr (Or.inl hm)

theorem simLoop_pd_covers (selfT : TeamsMap) (selfM : List Match) (t : String)
    (ht : t ∈ keys selfT) :
    ∀ (k : ℕ) (st stf : SimState) (r rngf : RNG), 1 ≤ k →
      simLoop selfT selfM k st r = some (stf, rngf) →
      t ∈ keys stf.points_distribution := by
  intro k
  cases k with
  | zero => intro st stf r rngf hk _; exact absurd hk (by omega)
  | succ k =>
    intro st stf r rngf _ h
    rw [simLoop] at h
    split at h
    · exact absurd h (by simp)
    next fp rng1 hstep =>
      refine simLoop_pd_mono selfT selfM t k (recordRun st (sortByPoints fp)) stf rng1 rngf h ?_
      refine (recordAux_pd_mem (sortByPoints fp) 1 st t).mpr (Or.inr ?_)
      refine (mem_keys_sortByPoints fp t).mpr ?_
      rw [run_single_fp_keys selfT selfM r fp rng1 hstep]
      exact ht

/-- C10: a team has an entry in `qualification_probability` iff it finished
at or above the cutoff in at least one run; a team that never qualifies is
absent from that mapping rather than reported with probability 0, while
`average_points` and `points_range` have an entry for every snapshot team
whenever at least one run was performed. -/
theorem qualification_mapping_presence (selfT : TeamsMap) (selfM : List Match)
    (n : ℕ) (rng : RNG) (res : SimResults) (rng' : RNG)
    (h : run_simulations selfT selfM n rng = some (res, rng')) :
    (∀ t : String, t ∈ keys res.qualification_probability
        ↔ ∃ j, j < n ∧ runQualifies selfT selfM rng t j = true)
    ∧ (1 ≤ n → ∀ t ∈ keys selfT,
        t ∈ keys res.average_points ∧ t ∈ keys res.points_range) := by
  unfold run_simulations at h
  split at h
  · exact absurd h (by simp)
  next st rng2 hloop =>
    simp only [Option.some.injEq, Prod.mk.injEq] at h
    obtain ⟨hres, _⟩ := h
    constructor
    · intro t
      have hkeys : keys res.qualification_probability
          = keys st.qualification_count := by
        rw [← hres]
        exact keys_map_val (fun v : ℕ => (v : ℚ) / (n : ℚ) * 100) st.qualification_count
      rw [hkeys]
      have hloop0 : simLoop selfT selfM n emptyState
          (shift (2 * unplayedCount selfM * 0) rng) = some (st, rng2) := by
        rw [mul_zero]
        exact hloop
      have hq := simLoop_qc_mem selfT selfM rng n 0 emptyState st rng2 hloop0 t
      rw [hq]
      simp [emptyState, keys]
    · intro hn t ht
      have hcov := simLoop_pd_covers selfT selfM t ht n emptyState st rng rng2 hn hloop
      constructor
      · have hk : keys res.average_points = keys st.points_distribution := by
          rw [← hres]
          exact keys_map_val (fun v : List ℤ => ((v.sum : ℚ)) / (v.length : ℚ))
            st.points_distribution
        rw [hk]
        exact hcov
      · have hk : keys res.points_range = keys st.points_distribution := by
          rw [← hres]
          exact keys_map_val (fun v : List ℤ => (pyMin v, pyMax v)) st.points_distribution
        rw [hk]
        exact hcov

/-- C10 witness: the theorem applied to a single run on the two tied teams of
`tY` with no unplayed fixture. -/
theorem qualification_mapping_presence_witness :
    run_simulations tY [] 1 rng0
        = some (finalize (recordRun emptyState (sortByPoints [("A", (3:ℤ)), ("B", 3)])) 1, rng0)
    ∧ ((∀ t : String,
          t ∈ keys (finalize (recordRun emptyState
              (sortByPoints [("A", (3:ℤ)), ("B", 3)])) 1).qualification_probability
            ↔ ∃ j, j < 1 ∧ runQualifies tY [] rng0 t j = true)
        ∧ (1 ≤ 1 → ∀ t ∈ keys tY,
            t ∈ keys (finalize (recordRun emptyState
                (sortByPoints [("A", (3:ℤ)), ("B", 3)])) 1).average_points
            ∧ t ∈ keys (finalize (recordRun emptyState
                (sortByPoints [("A", (3:ℤ)), ("B", 3)])) 1).points_range)) :=
  ⟨rfl,
    qualification_mapping_presence tY [] 1 rng0
      (finalize (recordRun emptyState (sortByPoints [("A", (3:ℤ)), ("B", 3)])) 1)
      rng0 rfl⟩

end VSDB
